import Mathlib

/-!
Shallow embedding of the DQN agent in `dqn/agent.py` (class `Agent`),
with the numeric tensor values modelled over `ℚ`.  The neural network
(`QNetwork`) is kept opaque, as a function from a state vector to the
vector of action values, following the repository design.  Definitions
carry the line numbers of the Python source they embed.
-/

namespace DQNAgent

/-- Conversion of the stored `done` flag to the numeric `0/1` value the
replay buffer hands to `learn` (the buffer stores dones as floats). -/
def doneFlag (d : Bool) : ℚ := if d then 1 else 0

/-- One experience tuple `(state, action, reward, next_state, done)`
as stored by `Agent.step` (agent.py line 58). -/
structure Transition where
  state : List ℚ
  action : ℕ
  reward : ℚ
  next_state : List ℚ
  done : Bool
deriving DecidableEq

/-- Row maximum, embedding `tensor.max(1)[0]` for one row of the
batched tensor of target-network outputs (agent.py line 98). -/
def tensorMax (l : List ℚ) : ℚ := l.foldl max (l.headD 0)

/-- Lines 98 and 100 of agent.py, `Agent.learn`:
`Q_targets_next = qnetwork_target(next_states).detach().max(1)[0]` and
`Q_targets = rewards + (gamma * Q_targets_next * (1 - dones))`,
written per batch element.  `qTarget` is the opaque target network. -/
def learnTDTargets (gamma : ℚ) (qTarget : List ℚ → List ℚ)
    (batch : List Transition) : List ℚ :=
  batch.map (fun tr =>
    tr.reward + gamma * tensorMax (qTarget tr.next_state) * (1 - doneFlag tr.done))

/-- Lines 124 and 125 of agent.py, `Agent.soft_update`: the parameter
tensors of the two networks are paired positionally by
`zip(target_model.parameters(), local_model.parameters())` and each
target entry is overwritten with `tau*local + (1-tau)*target`.
Parameters are modelled as a list of tensors, each a list of entries. -/
def soft_update (tau : ℚ) (localPs targetPs : List (List ℚ)) : List (List ℚ) :=
  List.zipWith
    (fun targetP localP =>
      List.zipWith (fun t l => tau * l + (1 - tau) * t) targetP localP)
    targetPs localPs

/-- C1: In learn, the TD target of every batch element is
`reward + gamma * max_a target(next_state, a) * (1 - done)`; for a
terminal transition the bootstrap factor is zero, so the target is the
immediate reward, with `gamma` and `next_state` dropping out. -/
theorem learn_td_target_spec (gamma : ℚ) (qTarget : List ℚ → List ℚ)
    (batch : List Transition) :
    learnTDTargets gamma qTarget batch =
      batch.map (fun tr =>
        if tr.done then tr.reward
        else tr.reward + gamma * tensorMax (qTarget tr.next_state)) := by
  unfold learnTDTargets
  apply List.map_congr_left
  intro tr _
  cases h : tr.done
  · simp [doneFlag]
  · simp [doneFlag]

/-- C2: in soft_update, every entry of every target tensor becomes
`tau * local + (1 - tau) * target`, the tensors being paired
positionally; with `tau = 0` the target parameters are unchanged and
with `tau = 1` they become exactly the local parameters. -/
theorem soft_update_spec (tau : ℚ) (lps tps : List (List ℚ))
    (hlen : tps.length = lps.length)
    (hshape : ∀ i (hi : i < tps.length) (hj : i < lps.length),
      (tps.get ⟨i, hi⟩).length = (lps.get ⟨i, hj⟩).length) :
    (∀ i j (hit : i < tps.length) (hil : i < lps.length)
        (hjt : j < (tps.get ⟨i, hit⟩).length) (hjl : j < (lps.get ⟨i, hil⟩).length)
        (hi : i < (soft_update tau lps tps).length)
        (hj : j < ((soft_update tau lps tps).get ⟨i, hi⟩).length),
        ((soft_update tau lps tps).get ⟨i, hi⟩).get ⟨j, hj⟩ =
          tau * (lps.get ⟨i, hil⟩).get ⟨j, hjl⟩
            + (1 - tau) * (tps.get ⟨i, hit⟩).get ⟨j, hjt⟩) ∧
    soft_update 0 lps tps = tps ∧
    soft_update 1 lps tps = lps := by
  refine ⟨?_, ?_, ?_⟩
  · intro i j hit hil hjt hjl hi hj
    simp [soft_update]
  · apply List.ext_get
    · simp [soft_update, hlen]
    · intro n h1 h2
      have hnl : n < lps.length := by
        simpa [soft_update, hlen] using h2
      have hnt : n < tps.length := by
        simpa [soft_update, hlen] using h2
      have hs := hshape n hnt hnl
      simp only [List.get_eq_getElem] at hs
      simp only [soft_update, List.get_eq_getElem, List.getElem_zipWith]
      apply List.ext_get
      · simp [hs]
      · intro m m1 m2
        simp
  · apply List.ext_get
    · simp [soft_update, hlen]
    · intro n h1 h2
      have hnl : n < lps.length := by
        simpa [soft_update, hlen] using h2
      have hnt : n < tps.length := by
        simpa [soft_update, hlen] using h2
      have hs := hshape n hnt hnl
      simp only [List.get_eq_getElem] at hs
      simp only [soft_update, List.get_eq_getElem, List.getElem_zipWith]
      apply List.ext_get
      · simp [hs]
      · intro m m1 m2
        simp

/-- Witness for C2 at a concrete parameter list. -/
theorem soft_update_spec_witness :
    soft_update 1 [[(1 : ℚ), 2]] [[3, 4]] = [[(1 : ℚ), 2]] :=
  (soft_update_spec 1 [[(1 : ℚ), 2]] [[3, 4]] rfl
    (by
      intro i hi hj
      simp only [List.length_cons, List.length_nil] at hi
      interval_cases i
      rfl)).2.2

/-- Left-to-right scan underlying `np.argmax`: the running best index is
replaced only when a strictly greater value appears, so the first
occurrence of the maximum wins.  `idx` is the index of the head of the
remaining list, `best` the current best index, `bv` its value. -/
def npArgmaxAux : List ℚ → ℕ → ℕ → ℚ → ℕ
  | [], _, best, _ => best
  | x :: xs, idx, best, bv =>
    if bv < x then npArgmaxAux xs (idx + 1) idx x
    else npArgmaxAux xs (idx + 1) best bv

/-- Embedding of `np.argmax` on a vector of action values
(agent.py line 84). -/
def npArgmax : List ℚ → ℕ
  | [] => 0
  | x :: xs => npArgmaxAux xs 1 0 x

lemma npArgmaxAux_spec (xs : List ℚ) : ∀ (idx best : ℕ) (bv : ℚ),
    (npArgmaxAux xs idx best bv = best ∧
      ∀ k (hk : k < xs.length), xs.get ⟨k, hk⟩ ≤ bv) ∨
    (∃ k, ∃ (hk : k < xs.length),
      npArgmaxAux xs idx best bv = idx + k ∧
      bv < xs.get ⟨k, hk⟩ ∧
      (∀ m (hm : m < k), xs.get ⟨m, hm.trans hk⟩ < xs.get ⟨k, hk⟩) ∧
      (∀ m (hm : m < xs.length), xs.get ⟨m, hm⟩ ≤ xs.get ⟨k, hk⟩)) := by
  induction xs with
  | nil =>
    intro idx best bv
    left
    exact ⟨rfl, by intro k hk; simp at hk⟩
  | cons x xs ih =>
    intro idx best bv
    by_cases hx : bv < x
    · rcases ih (idx + 1) idx x with ⟨hr, hall⟩ | ⟨k, hk, hr, hbv, hfirst, hmax⟩
      · right
        refine ⟨0, by simp, ?_, by simpa using hx, ?_, ?_⟩
        · simpa [npArgmaxAux, hx] using hr
        · intro m hm; omega
        · intro m hm
          match m with
          | 0 => simp
          | Nat.succ m' =>
            have hm' : m' < xs.length := by simpa using hm
            simpa using hall m' hm'
      · right
        have hk' : k + 1 < (x :: xs).length := by simpa using Nat.succ_lt_succ hk
        refine ⟨k + 1, hk', ?_, ?_, ?_, ?_⟩
        · have : npArgmaxAux (x :: xs) idx best bv = npArgmaxAux xs (idx + 1) idx x := by
            simp [npArgmaxAux, hx]
          rw [this, hr]; omega
        · have : bv < x := hx
          have h2 : x < xs.get ⟨k, hk⟩ := hbv
          calc bv < x := this
            _ < xs.get ⟨k, hk⟩ := h2
            _ = (x :: xs).get ⟨k + 1, hk'⟩ := by simp
        · intro m hm
          match m with
          | 0 =>
            simpa using hbv
          | Nat.succ m' =>
            have hm' : m' < k := by omega
            simpa using hfirst m' hm'
        · intro m hm
          match m with
          | 0 =>
            simpa using le_of_lt hbv
          | Nat.succ m' =>
            have hm' : m' < xs.length := by simpa using hm
            simpa using hmax m' hm'
    · rcases ih (idx + 1) best bv with ⟨hr, hall⟩ | ⟨k, hk, hr, hbv, hfirst, hmax⟩
      · left
        refine ⟨by simpa [npArgmaxAux, hx] using hr, ?_⟩
        intro k hk
        match k with
        | 0 => simpa using le_of_not_lt hx
        | Nat.succ k' =>
          have hk' : k' < xs.length := by simpa using hk
          simpa using hall k' hk'
      · right
        have hk' : k + 1 < (x :: xs).length := by simpa using Nat.succ_lt_succ hk
        refine ⟨k + 1, hk', ?_, ?_, ?_, ?_⟩
        · have : npArgmaxAux (x :: xs) idx best bv = npArgmaxAux xs (idx + 1) best bv := by
            simp [npArgmaxAux, hx]
          rw [this, hr]; omega
        · calc bv < xs.get ⟨k, hk⟩ := hbv
            _ = (x :: xs).get ⟨k + 1, hk'⟩ := by simp
        · intro m hm
          match m with
          | 0 =>
            simpa using lt_of_le_of_lt (le_of_not_lt hx) hbv
          | Nat.succ m' =>
            have hm' : m' < k := by omega
            simpa using hfirst m' hm'
        · intro m hm
          match m with
          | 0 =>
            simpa using le_of_lt (lt_of_le_of_lt (le_of_not_lt hx) hbv)
          | Nat.succ m' =>
            have hm' : m' < xs.length := by simpa using hm
            simpa using hmax m' hm'

/-- The index returned by `np.argmax` is in range, carries the maximum
value, and every strictly earlier index carries a strictly smaller
value (first-occurrence tie breaking). -/
lemma npArgmax_spec (l : List ℚ) (hne : l ≠ []) :
    ∃ (hm : npArgmax l < l.length),
      (∀ j (hj : j < l.length), l.get ⟨j, hj⟩ ≤ l.get ⟨npArgmax l, hm⟩) ∧
      (∀ j (hj : j < npArgmax l), l.get ⟨j, hj.trans hm⟩ < l.get ⟨npArgmax l, hm⟩) := by
  match l with
  | [] => exact absurd rfl hne
  | x :: xs =>
    rcases npArgmaxAux_spec xs 1 0 x with ⟨hr, hall⟩ | ⟨k, hk, hr, hbv, hfirst, hmax⟩
    · have hr0 : npArgmax (x :: xs) = 0 := hr
      refine ⟨by simp [hr0], ?_, ?_⟩
      · intro j hj
        match j with
        | 0 => simp [hr0]
        | Nat.succ j' =>
          have hj' : j' < xs.length := by simpa using hj
          simpa [hr0] using hall j' hj'
      · intro j hj
        rw [hr0] at hj
        omega
    · have hrk : npArgmax (x :: xs) = k + 1 := by
        have : npArgmax (x :: xs) = npArgmaxAux xs 1 0 x := rfl
        rw [this, hr]; omega
      have hkl : k + 1 < (x :: xs).length := by simpa using Nat.succ_lt_succ hk
      have hget : ∀ (h : npArgmax (x :: xs) < (x :: xs).length),
          (x :: xs).get ⟨npArgmax (x :: xs), h⟩ = xs.get ⟨k, hk⟩ := by
        intro h
        simp only [hrk] at h ⊢
        simp
      refine ⟨by rw [hrk]; exact hkl, ?_, ?_⟩
      · intro j hj
        rw [hget]
        match j with
        | 0 => simpa using le_of_lt hbv
        | Nat.succ j' =>
          have hj' : j' < xs.length := by simpa using hj
          simpa using hmax j' hj'
      · intro j hj
        rw [hget]
        rw [hrk] at hj
        match j with
        | 0 => simpa using hbv
        | Nat.succ j' =>
          have hj' : j' < k := by omega
          simpa using hfirst j' hj'

/-- Mutable state of the tensor library as far as `act` touches it:
the parameters of the two networks, the training-mode flag of the
local network, the autograd flag, and the tape of recorded forward
passes (empty entries mean no gradient was ever tracked). -/
structure TorchState where
  localParams : List (List ℚ)
  targetParams : List (List ℚ)
  localTraining : Bool
  gradEnabled : Bool
  gradTape : List (List ℚ)
deriving DecidableEq

/-- The agent state visible to `act`: tensor-library state plus the
replay memory and the step counter. -/
structure FullAgent where
  torch : TorchState
  memory : List Transition
  t_step : ℕ
deriving DecidableEq

/-- Forward pass of the local network: the input is recorded on the
gradient tape exactly when autograd is enabled.  `qEval` is the opaque
`QNetwork.forward` applied to the current local parameters. -/
def forwardLocal (qEval : List (List ℚ) → List ℚ → List ℚ)
    (ts : TorchState) (input : List ℚ) : List ℚ × TorchState :=
  (qEval ts.localParams input,
   if ts.gradEnabled then { ts with gradTape := ts.gradTape ++ [input] } else ts)

/-- Lines 68 to 86 of agent.py, `Agent.act`: set the local network to
eval mode, evaluate it under `torch.no_grad()`, restore train mode,
then return the argmax of the action values when the uniform draw `r`
(the outcome of `random.random()`) is strictly above `eps`, and the
uniformly drawn action `c` (the outcome of `random.choice`) otherwise. -/
def act (qEval : List (List ℚ) → List ℚ → List ℚ) (a : FullAgent)
    (state : List ℚ) (eps r : ℚ) (c : ℕ) : ℕ × FullAgent :=
  let ts1 := { a.torch with localTraining := false }
  let prevGrad := ts1.gradEnabled
  let ts2 := { ts1 with gradEnabled := false }
  let fw := forwardLocal qEval ts2 state
  let ts3 := { fw.2 with gradEnabled := prevGrad }
  let ts4 := { ts3 with localTraining := true }
  (if r > eps then npArgmax fw.1 else c, { a with torch := ts4 })

/-- Concrete network used to exercise `act`: two actions with values
`[5, 3]`, so the greedy action is index 0. -/
def actDemoQ : List (List ℚ) → List ℚ → List ℚ := fun _ _ => [5, 3]

/-- Concrete agent state used to exercise `act`. -/
def actDemoAgent : FullAgent := ⟨⟨[[0]], [[0]], true, true, []⟩, [], 0⟩

/-- Counterexample to C3 as stated: the greedy branch is guarded by
`random.random() > eps`, a strict comparison, and `random.random()` can
return exactly `0.0`; with `eps = 0` and the draw `r = 0` the random
branch executes, so the result does depend on the random generator
outcome and can differ from the argmax (here action 1 instead of the
greedy action 0). -/
theorem act_eps0_counterexample :
    (act actDemoQ actDemoAgent [0] 0 (1 / 2) 1).1 = 0 ∧
    (act actDemoQ actDemoAgent [0] 0 0 1).1 = 1 := by
  constructor
  · norm_num [act, forwardLocal, actDemoQ, npArgmax, npArgmaxAux]
  · norm_num [act]

/-- C3 amended: whenever the uniform draw `r` of `random.random()` is
nonzero, `act(state, eps = 0)` returns the index of the maximum of the
local value function evaluated on the state, breaking ties at the first
occurrence; the result is then independent of `r` and of the fallback
random action `c`.  Only the draw `r = 0`, which `random.random()` can
produce, escapes to the random branch. -/
theorem act_greedy_spec (qEval : List (List ℚ) → List ℚ → List ℚ) (a : FullAgent)
    (state : List ℚ) (r : ℚ) (c : ℕ) (hr : 0 < r)
    (hne : qEval a.torch.localParams state ≠ []) :
    (act qEval a state 0 r c).1 = npArgmax (qEval a.torch.localParams state) ∧
    ∃ (hm : npArgmax (qEval a.torch.localParams state) <
        (qEval a.torch.localParams state).length),
      (∀ j (hj : j < (qEval a.torch.localParams state).length),
        (qEval a.torch.localParams state).get ⟨j, hj⟩ ≤
          (qEval a.torch.localParams state).get ⟨npArgmax (qEval a.torch.localParams state), hm⟩) ∧
      (∀ j (hj : j < npArgmax (qEval a.torch.localParams state)),
        (qEval a.torch.localParams state).get ⟨j, hj.trans hm⟩ <
          (qEval a.torch.localParams state).get ⟨npArgmax (qEval a.torch.localParams state), hm⟩) := by
  constructor
  · simp [act, forwardLocal, hr]
  · exact npArgmax_spec _ hne

/-- Witness for C3 amended at a concrete input. -/
theorem act_greedy_spec_witness :
    (act actDemoQ actDemoAgent [0] 0 (1 / 2) 1).1 =
      npArgmax (actDemoQ actDemoAgent.torch.localParams [0]) :=
  (act_greedy_spec actDemoQ actDemoAgent [0] (1 / 2) 1 (by norm_num)
    (by decide)).1

/-- C9: `act` leaves every piece of trainable and control state
unchanged: the parameters of both networks, the gradient tape (the
forward pass runs with autograd disabled, so nothing is recorded), the
autograd flag, the replay memory and the step counter are all exactly
those of the incoming agent, for every state, epsilon and random
outcome. -/
theorem act_frame_spec (qEval : List (List ℚ) → List ℚ → List ℚ) (a : FullAgent)
    (state : List ℚ) (eps r : ℚ) (c : ℕ) :
    ((act qEval a state eps r c).2).torch.localParams = a.torch.localParams ∧
    ((act qEval a state eps r c).2).torch.targetParams = a.torch.targetParams ∧
    ((act qEval a state eps r c).2).torch.gradTape = a.torch.gradTape ∧
    ((act qEval a state eps r c).2).torch.gradEnabled = a.torch.gradEnabled ∧
    ((act qEval a state eps r c).2).memory = a.memory ∧
    ((act qEval a state eps r c).2).t_step = a.t_step := by
  refine ⟨rfl, rfl, rfl, rfl, rfl, rfl⟩

/-- Hyperparameters of the agent relevant to the stepping cadence
(agent.py lines 36 to 41). -/
structure Config where
  buffer_size : ℕ
  batch_size : ℕ
  update_every : ℕ
deriving DecidableEq

/-- Modelled from the spec: `ReplayBuffer.add` — the `ReplayBuffer`
class is imported from the `dqn` package and its file is not in the
repository snapshot; per the spec it is a fixed-capacity FIFO ring
that appends and, at capacity, evicts the oldest entry. -/
def bufferAdd (buffer_size : ℕ) (mem : List Transition) (tr : Transition) :
    List Transition :=
  if mem.length < buffer_size then mem ++ [tr] else mem.drop 1 ++ [tr]

/-- Control-loop state mutated by `Agent.step`: the replay memory, the
step counter `t_step`, and an instrumentation counter recording how
many times the learning branch has run. -/
structure CtrlState where
  memory : List Transition
  t_step : ℕ
  learnCount : ℕ
deriving DecidableEq

/-- Lines 56 to 66 of agent.py, `Agent.step`: add the transition to the
replay memory, advance `t_step` modulo `update_every`, and when the
counter wraps to zero and the memory holds strictly more than
`batch_size` transitions, sample a batch and learn (recorded here by
bumping `learnCount`). -/
def stepCtrl (cfg : Config) (s : CtrlState) (tr : Transition) : CtrlState :=
  let mem := bufferAdd cfg.buffer_size s.memory tr
  let t := (s.t_step + 1) % cfg.update_every
  { memory := mem
    t_step := t
    learnCount :=
      s.learnCount + (if t = 0 ∧ cfg.batch_size < mem.length then 1 else 0) }

/-- C4: every call to `step` stores the transition (it becomes the
newest element of the replay memory), advances the step counter to
`(t_step + 1) % update_every`, which is always below `update_every`,
and runs the learning branch exactly when the counter wraps to zero
and the buffer length strictly exceeds `batch_size`. -/
theorem step_cadence_spec (cfg : Config) (s : CtrlState) (tr : Transition)
    (h : 0 < cfg.update_every) :
    (stepCtrl cfg s tr).memory.getLast? = some tr ∧
    (stepCtrl cfg s tr).t_step = (s.t_step + 1) % cfg.update_every ∧
    (stepCtrl cfg s tr).t_step < cfg.update_every ∧
    (stepCtrl cfg s tr).learnCount =
      (if (s.t_step + 1) % cfg.update_every = 0 ∧
          cfg.batch_size < (stepCtrl cfg s tr).memory.length
       then s.learnCount + 1 else s.learnCount) := by
  refine ⟨?_, rfl, Nat.mod_lt _ h, ?_⟩
  · unfold stepCtrl bufferAdd
    by_cases hlen : s.memory.length < cfg.buffer_size <;>
      simp [hlen, List.getLast?_append]
  · unfold stepCtrl
    by_cases hc : (s.t_step + 1) % cfg.update_every = 0 ∧
        cfg.batch_size < (bufferAdd cfg.buffer_size s.memory tr).length <;>
      simp [hc]

/-- Witness for C4 at a concrete configuration and state. -/
theorem step_cadence_spec_witness :
    (stepCtrl ⟨100, 8, 4⟩ ⟨[], 0, 0⟩ ⟨[0], 0, 1, [0], false⟩).memory.getLast? =
      some ⟨[0], 0, 1, [0], false⟩ :=
  (step_cadence_spec ⟨100, 8, 4⟩ ⟨[], 0, 0⟩ ⟨[0], 0, 1, [0], false⟩ (by decide)).1

/-- Configuration of the end-to-end scenario of C5. -/
def c5cfg : Config := ⟨100, 8, 4⟩

/-- Synthetic transition of the end-to-end scenario of C5: state
dimension 4, reward 1, not terminal. -/
def c5tr : Transition := ⟨[0, 0, 0, 0], 0, 1, [0, 0, 0, 0], false⟩

/-- The control-loop state after feeding 50 synthetic transitions
through `step`, starting from a fresh agent. -/
def c5run : CtrlState :=
  (List.range 50).foldl (fun s _ => stepCtrl c5cfg s c5tr) ⟨[], 0, 0⟩

set_option maxRecDepth 4000 in
/-- Counterexample to C5 as stated: after the 50 synthetic steps the
buffer holds 50 transitions, but the learning branch has run 10 times,
not `floor(50/4) = 12` times: the counter wraps at steps 4, 8, ..., 48,
and at the wraps of steps 4 and 8 the buffer holds only 4 and 8
transitions, not strictly more than `batch_size = 8`. -/
theorem c5_scenario_counterexample : c5run.learnCount ≠ 12 := by
  decide

set_option maxRecDepth 4000 in
/-- C5 amended: with `state_size=4, action_size=2, buffer_size=100,
batch_size=8, update_every=4`, feeding 50 synthetic transitions with
reward 1 and done false yields buffer length exactly 50 and triggers
the learning step exactly 10 times — the wraps at steps 4 and 8 find
the buffer at only 4 and 8 transitions, not strictly above
`batch_size`, so only the wraps at steps 12, 16, ..., 48 learn. -/
theorem c5_scenario_spec : c5run.memory.length = 50 ∧ c5run.learnCount = 10 := by
  constructor <;> decide

/-- Line 163 of agent.py: `eps = max(eps_end, eps_decay*eps)`, the
per-episode epsilon update. -/
def epsNext (eps_end eps_decay eps : ℚ) : ℚ := max eps_end (eps_decay * eps)

/-- The epsilon value at the start of episode `n + 1` of `Agent.train`
(agent.py lines 143 and 163): `eps_start` before the first episode,
then one `epsNext` application at the end of every episode. -/
def epsSeq (eps_end eps_decay eps_start : ℚ) : ℕ → ℚ
  | 0 => eps_start
  | n + 1 => epsNext eps_end eps_decay (epsSeq eps_end eps_decay eps_start n)

lemma epsSeq_closed_form (e d s : ℚ) (hd0 : 0 ≤ d) (hd1 : d ≤ 1)
    (he : 0 ≤ e) (hes : e ≤ s) :
    ∀ n, epsSeq e d s n = max e (d ^ n * s) := by
  intro n
  induction n with
  | zero =>
    rw [epsSeq, pow_zero, one_mul]
    exact (max_eq_right hes).symm
  | succ n ih =>
    have hs : 0 ≤ s := he.trans hes
    have hde : d * e ≤ e := by
      calc d * e ≤ 1 * e := by
            exact mul_le_mul_of_nonneg_right hd1 he
        _ = e := one_mul e
    calc epsSeq e d s (n + 1) = max e (d * max e (d ^ n * s)) := by
          rw [epsSeq, ih, epsNext]
      _ = max e (max (d * e) (d * (d ^ n * s))) := by
          rw [mul_max_of_nonneg _ _ hd0]
      _ = max (max e (d * e)) (d * (d ^ n * s)) := by
          rw [max_assoc]
      _ = max e (d ^ (n + 1) * s) := by
          rw [max_eq_left hde, pow_succ]
          ring_nf

/-- C6: the per-episode epsilon sequence of the training loop obeys the
closed form `max(eps_end, eps_decay^n * eps_start)`, is monotonically
non-increasing, never falls below `eps_end`, and with start 1.0, decay
0.995 and floor 0.01 it equals `max(0.01, 0.995^2000)` after 2000
episodes. -/
theorem eps_schedule_spec (e d s : ℚ) (hd0 : 0 ≤ d) (hd1 : d ≤ 1)
    (he : 0 ≤ e) (hes : e ≤ s) :
    (∀ n, epsSeq e d s n = max e (d ^ n * s)) ∧
    (∀ n, epsSeq e d s (n + 1) ≤ epsSeq e d s n) ∧
    (∀ n, e ≤ epsSeq e d s n) ∧
    epsSeq (1 / 100) (995 / 1000) 1 2000 = max (1 / 100) ((995 / 1000) ^ 2000) := by
  have hcf := epsSeq_closed_form e d s hd0 hd1 he hes
  have hs : 0 ≤ s := he.trans hes
  refine ⟨hcf, ?_, ?_, ?_⟩
  · intro n
    rw [hcf, hcf]
    apply max_le_max (le_refl e)
    rw [pow_succ]
    have hpow : 0 ≤ d ^ n := pow_nonneg hd0 n
    calc d ^ n * d * s ≤ d ^ n * 1 * s := by
          apply mul_le_mul_of_nonneg_right _ hs
          exact mul_le_mul_of_nonneg_left hd1 hpow
      _ = d ^ n * s := by ring
  · intro n
    rw [hcf]
    exact le_max_left _ _
  · have h2 := epsSeq_closed_form (1 / 100) (995 / 1000) 1
      (by norm_num) (by norm_num) (by norm_num) (by norm_num) 2000
    rw [mul_one] at h2
    exact h2

/-- Witness for C6 at the concrete hyperparameters of the training
loop. -/
theorem eps_schedule_spec_witness :
    epsSeq (1 / 100) (995 / 1000) 1 2000 = max (1 / 100) ((995 / 1000) ^ 2000) :=
  (eps_schedule_spec (1 / 100) (995 / 1000) 1 (by norm_num) (by norm_num)
    (by norm_num) (by norm_num)).2.2.2

/-- Append to `scores_window = deque(maxlen=100)` (agent.py lines 140
and 159): append on the right, evict on the left when the window
already holds 100 scores. -/
def windowPush (w : List ℚ) (x : ℚ) : List ℚ :=
  if w.length < 100 then w ++ [x] else w.drop 1 ++ [x]

/-- Embedding of `np.mean` on the score window (agent.py line 161). -/
def listMean (l : List ℚ) : ℚ := l.sum / l.length

/-- Contents of the trailing score window after episode `k` of a run
whose episode scores are given by `score` (episodes numbered from 1). -/
def windowAfter (score : ℕ → ℚ) : ℕ → List ℚ
  | 0 => []
  | k + 1 => windowPush (windowAfter score k) (score (k + 1))

/-- Outcome of a training run: episodes actually played, the episode
count printed by the solved message (`i_episode - 100`) when the run
stopped early, whether `save()` ran, and the final epsilon. -/
structure TrainResult where
  episodesRun : ℕ
  solvedReport : Option ℤ
  saved : Bool
  finalEps : ℚ
deriving DecidableEq

/-- Lines 144 to 171 of agent.py, `Agent.train`, abstracted over the
environment: `score j` is the cumulative reward of episode `j`.  Each
episode appends its score to the trailing window, decays epsilon, and
when the window mean reaches 13.0 prints the solved message with
`i_episode - 100`, saves a checkpoint and stops.  `fuel` is the number
of remaining episodes, `i` the number of episodes already played. -/
def trainAux (score : ℕ → ℚ) (e d : ℚ) : ℕ → ℕ → List ℚ → ℚ → TrainResult
  | 0, i, _, eps => ⟨i, none, false, eps⟩
  | fuel + 1, i, w, eps =>
    let w2 := windowPush w (score (i + 1))
    let eps2 := epsNext e d eps
    if 13 ≤ listMean w2 then ⟨i + 1, some ((i : ℤ) + 1 - 100), true, eps2⟩
    else trainAux score e d fuel (i + 1) w2 eps2

/-- A full training run of at most `n` episodes with epsilon floor `e`,
decay `d` and start `s` (agent.py `train` defaults: n = 2000, s = 1.0,
e = 0.01, d = 0.995). -/
def trainRun (score : ℕ → ℚ) (e d s : ℚ) (n : ℕ) : TrainResult :=
  trainAux score e d n 0 [] s

lemma trainAux_first_solved (score : ℕ → ℚ) (e d s : ℚ) (k : ℕ)
    (hsolved : 13 ≤ listMean (windowAfter score k))
    (hbefore : ∀ j, 1 ≤ j → j < k → listMean (windowAfter score j) < 13) :
    ∀ fuel i, i < k → k ≤ i + fuel →
      trainAux score e d fuel i (windowAfter score i) (epsSeq e d s i) =
        ⟨k, some ((k : ℤ) - 100), true, epsSeq e d s k⟩ := by
  intro fuel
  induction fuel with
  | zero =>
    intro i hik hki
    omega
  | succ fuel ih =>
    intro i hik hki
    have hw : windowPush (windowAfter score i) (score (i + 1)) =
        windowAfter score (i + 1) := rfl
    have heps : epsNext e d (epsSeq e d s i) = epsSeq e d s (i + 1) := rfl
    rcases Nat.lt_or_ge (i + 1) k with hlt | hge
    · have hmean : ¬ (13 ≤ listMean (windowAfter score (i + 1))) :=
        not_le_of_lt (hbefore (i + 1) (by omega) hlt)
      rw [trainAux, hw, heps, if_neg hmean]
      exact ih (i + 1) hlt (by omega)
    · have hik1 : k = i + 1 := by omega
      subst hik1
      rw [trainAux, hw, heps, if_pos hsolved]
      have hcast : (i : ℤ) + 1 - 100 = ((i + 1 : ℕ) : ℤ) - 100 := by
        push_cast
        ring
      rw [hcast]

/-- C7: when episode `k` is the first whose trailing-100-episode mean
score reaches the solved threshold 13.0 and the episode budget `n`
reaches `k`, the training loop stops at the end of episode `k` (it
never continues past it), the checkpoint save runs, the solved message
reports `k - 100`, and epsilon has been decayed exactly once per played
episode. -/
theorem train_solved_stop (score : ℕ → ℚ) (e d s : ℚ) (n k : ℕ)
    (hk1 : 1 ≤ k) (hkn : k ≤ n)
    (hsolved : 13 ≤ listMean (windowAfter score k))
    (hbefore : ∀ j, 1 ≤ j → j < k → listMean (windowAfter score j) < 13) :
    trainRun score e d s n = ⟨k, some ((k : ℤ) - 100), true, epsSeq e d s k⟩ := by
  have h := trainAux_first_solved score e d s k hsolved hbefore n 0
    (by omega) (by omega)
  simpa [trainRun] using h

/-- Witness for C7: an environment whose every episode scores 13 solves
the run at episode 1, the reported count is `1 - 100 = -99`. -/
theorem train_solved_stop_witness :
    trainRun (fun _ => (13 : ℚ)) 0 1 1 1 =
      ⟨1, some ((1 : ℤ) - 100), true, epsSeq 0 1 1 1⟩ :=
  train_solved_stop (fun _ => (13 : ℚ)) 0 1 1 1 1 (by omega) (by omega)
    (by norm_num [windowAfter, windowPush, listMean])
    (by intro j h1 h2; omega)

/-- One named parameter tensor of a network state dict: its shape and
its flattened entries. -/
structure ParamTensor where
  shape : List ℕ
  data : List ℚ
deriving DecidableEq

/-- The persistent state `save` and `load` touch: the parameters of
the local network, the parameters of the target network, and the
optimizer state (Adam moment estimates), the last two modelled
opaquely. -/
structure NetState where
  localParams : List ParamTensor
  targetParams : List ParamTensor
  optimState : List ℚ
deriving DecidableEq

/-- Shapes of a parameter list, the data `load_state_dict` validates. -/
def paramShapes (ps : List ParamTensor) : List (List ℕ) :=
  ps.map ParamTensor.shape

/-- Modelled from the spec: agent.py line 205,
`torch.save(self.qnetwork_local.state_dict(), self.checkpoint_file)` —
the checkpoint behaviour itself lives in the external tensor library;
per the spec the checkpoint file is a single blob holding exactly the
local parameters and the path is overwritten unconditionally.  The
file is modelled as `Option (List ParamTensor)`, `none` when absent. -/
def saveCkpt (_fsFile : Option (List ParamTensor)) (a : NetState) :
    Option (List ParamTensor) :=
  some a.localParams

/-- Modelled from the spec: agent.py line 213,
`self.qnetwork_local.load_state_dict(torch.load(self.checkpoint_file))`
— per the spec, loading requires the file to exist and the stored
parameter shapes to match the constructed network, else it fails; on
success only the local parameters are replaced. -/
def loadCkpt (fsFile : Option (List ParamTensor)) (a : NetState) :
    Except String NetState :=
  match fsFile with
  | none => Except.error "checkpoint file not found"
  | some ps =>
    if paramShapes ps = paramShapes a.localParams then
      Except.ok { a with localParams := ps }
    else Except.error "parameter shape mismatch"

/-- C8: `save` writes exactly the local parameters, whatever the file
held before; `load` fails when the file is absent or the stored shapes
mismatch, and on success replaces exactly the local parameters,
leaving the target network and optimizer state untouched. -/
theorem save_load_spec (f : Option (List ParamTensor)) (a : NetState)
    (ps : List ParamTensor) :
    saveCkpt f a = some a.localParams ∧
    loadCkpt none a = Except.error "checkpoint file not found" ∧
    (paramShapes ps = paramShapes a.localParams →
      loadCkpt (some ps) a = Except.ok { a with localParams := ps }) ∧
    (paramShapes ps ≠ paramShapes a.localParams →
      loadCkpt (some ps) a = Except.error "parameter shape mismatch") ∧
    (∀ a2, loadCkpt (some ps) a = Except.ok a2 →
      a2.localParams = ps ∧ a2.targetParams = a.targetParams ∧
        a2.optimState = a.optimState) := by
  refine ⟨rfl, rfl, ?_, ?_, ?_⟩
  · intro h
    simp [loadCkpt, h]
  · intro h
    simp [loadCkpt, h]
  · intro a2 h
    by_cases hs : paramShapes ps = paramShapes a.localParams
    · simp only [loadCkpt, if_pos hs, Except.ok.injEq] at h
      subst h
      exact ⟨rfl, rfl, rfl⟩
    · simp [loadCkpt, if_neg hs] at h

/-- Concrete network state for the C8 witness. -/
def demoNet : NetState := ⟨[⟨[2], [1, 2]⟩], [⟨[2], [3, 4]⟩], [7]⟩

/-- Witness for C8: loading a shape-compatible checkpoint replaces the
local parameters and nothing else. -/
theorem save_load_spec_witness :
    loadCkpt (some [⟨[2], [5, 6]⟩]) demoNet =
      Except.ok { demoNet with localParams := [⟨[2], [5, 6]⟩] } :=
  (save_load_spec none demoNet [⟨[2], [5, 6]⟩]).2.2.1 (by decide)

/-- Lines 182 to 196 of agent.py, `Agent.test`: the `while True`
interaction loop of one evaluation episode, which exits only when the
environment reports done.  The environment is abstracted as the done
flag it reports at each iteration; `fuel` bounds the observed prefix
of the loop, `t0` is the current iteration index; `none` means the
loop was still running after `fuel` iterations. -/
def testLoop (done : ℕ → Bool) : ℕ → ℕ → Option ℕ
  | 0, _ => none
  | fuel + 1, t0 => if done t0 then some t0 else testLoop done fuel (t0 + 1)

/-- Lines 148 to 158 of agent.py, `Agent.train`: the inner episode
loop, a `for t in range(max_t)` that additionally exits on done;
returns the number of iterations executed. -/
def trainInnerIters (done : ℕ → Bool) : ℕ → ℕ → ℕ
  | 0, _ => 0
  | fuel + 1, t0 => if done t0 then 1 else 1 + trainInnerIters done fuel (t0 + 1)

lemma testLoop_none_iff (done : ℕ → Bool) : ∀ (fuel t0 : ℕ),
    testLoop done fuel t0 = none ↔ ∀ j, j < fuel → done (t0 + j) = false := by
  intro fuel
  induction fuel with
  | zero =>
    intro t0
    simp [testLoop]
  | succ fuel ih =>
    intro t0
    by_cases h0 : done t0
    · simp only [testLoop, if_pos h0]
      constructor
      · intro h
        exact absurd h (by simp)
      · intro h
        have := h 0 (by omega)
        simp [h0] at this
    · simp only [testLoop, if_neg h0]
      rw [ih (t0 + 1)]
      constructor
      · intro h j hj
        match j with
        | 0 => simpa using h0
        | Nat.succ j2 =>
          have := h j2 (by omega)
          rw [show t0 + (j2 + 1) = t0 + 1 + j2 by omega]
          exact this
      · intro h j hj
        have := h (j + 1) (by omega)
        rw [show t0 + 1 + j = t0 + (j + 1) by omega]
        exact this

lemma testLoop_some (done : ℕ → Bool) : ∀ (fuel k t0 : ℕ),
    done (t0 + k) = true → (∀ j, j < k → done (t0 + j) = false) →
    k < fuel → testLoop done fuel t0 = some (t0 + k) := by
  intro fuel
  induction fuel with
  | zero =>
    intro k t0 _ _ h
    omega
  | succ fuel ih =>
    intro k t0 hk hfirst hlt
    by_cases h0 : done t0
    · have hk0 : k = 0 := by
        by_contra hne
        have := hfirst 0 (by omega)
        simp [h0] at this
      subst hk0
      simp [testLoop, h0]
    · have hk0 : k ≠ 0 := by
        intro he
        subst he
        simp at hk
        exact h0 hk
      obtain ⟨k2, rfl⟩ : ∃ k2, k = k2 + 1 := ⟨k - 1, by omega⟩
      rw [testLoop, if_neg h0]
      rw [show t0 + (k2 + 1) = t0 + 1 + k2 by omega]
      apply ih k2 (t0 + 1)
      · rw [show t0 + 1 + k2 = t0 + (k2 + 1) by omega]
        exact hk
      · intro j hj
        rw [show t0 + 1 + j = t0 + (j + 1) by omega]
        exact hfirst (j + 1) (by omega)
      · omega

/-- C10: the evaluation-episode loop of `test` has no iteration cap:
for every fuel bound it is still running iff the environment has not
signalled done within that bound, an environment that never signals
done keeps it running past every bound, and it stops at exactly the
first done signal; by contrast the training episode loop never exceeds
its `max_t` cap. -/
theorem test_loop_unbounded (done : ℕ → Bool) :
    (∀ fuel, testLoop done fuel 0 = none ↔ ∀ j, j < fuel → done j = false) ∧
    ((∀ t, done t = false) → ∀ fuel, testLoop done fuel 0 = none) ∧
    (∀ T, done T = true → (∀ t, t < T → done t = false) →
      ∀ fuel, T < fuel → testLoop done fuel 0 = some T) ∧
    (∀ max_t t0, trainInnerIters done max_t t0 ≤ max_t) := by
  refine ⟨?_, ?_, ?_, ?_⟩
  · intro fuel
    simpa using testLoop_none_iff done fuel 0
  · intro h fuel
    rw [testLoop_none_iff done fuel 0]
    intro j _
    simpa using h j
  · intro T hT hfirst fuel hlt
    have := testLoop_some done fuel T 0 (by simpa using hT)
      (by simpa using hfirst) hlt
    simpa using this
  · intro max_t
    induction max_t with
    | zero =>
      intro t0
      simp [trainInnerIters]
    | succ m ih =>
      intro t0
      by_cases h0 : done t0
      · simp [trainInnerIters, h0]
      · simp only [trainInnerIters, if_neg h0]
        have := ih (t0 + 1)
        omega

/-- Witness for C10: an environment that never reports done keeps the
evaluation loop running past any bound. -/
theorem test_loop_unbounded_witness :
    testLoop (fun _ => false) 5 0 = none :=
  (test_loop_unbounded (fun _ => false)).2.1 (fun _ => rfl) 5

end DQNAgent
